import Mathlib

/-!
Verification development for the CodeArtifact deployment-orchestration and
dependency-publishing toolkit.  The JavaScript sources are shallowly embedded
as Lean functions: filesystem and process state become explicit state records,
fallible operations return `Except`/`Option`, and subprocess results (the npm
publish invocation, the AWS client calls) become explicit input data.
-/

namespace CodeArtifact

/-- Predicate `listStartsWith needle hay` holds when `hay` begins with `needle`
(character-list level helper for substring search). -/
def listStartsWith : List Char → List Char → Bool
  | [], _ => true
  | _ :: _, [] => false
  | a :: as, b :: bs => a = b && listStartsWith as bs

/-- Predicate `listContainsSub needle hay`: `needle` occurs contiguously inside `hay`. -/
def listContainsSub (needle : List Char) : List Char → Bool
  | [] => needle.isEmpty
  | c :: t => listStartsWith needle (c :: t) || listContainsSub needle t

/-- Predicate `occursIn needle hay`: string `needle` occurs as a contiguous substring of
`hay`.  Embeds JavaScript `hay.includes(needle)`. -/
def occursIn (needle hay : String) : Bool :=
  listContainsSub needle.data hay.data

/-- Predicate `strStartsWith pre s`: string `s` begins with `pre` (structural version of
`String.startsWith`, kept kernel-reducible). -/
def strStartsWith (pre s : String) : Bool :=
  listStartsWith pre.data s.data

/-- Embeds `url.replace(/^https?:\/\//, '')`: drop a leading `https://` or
`http://` scheme. -/
def stripProtocol (url : String) : String :=
  if strStartsWith "https://" url then ⟨url.data.drop 8⟩
  else if strStartsWith "http://" url then ⟨url.data.drop 7⟩
  else url

/-- Embeds `s.replace(/\/$/, '')`: drop one trailing slash. -/
def stripTrailingSlash (s : String) : String :=
  if s.data.getLast? = some ('/' : Char) then ⟨s.data.dropLast⟩ else s

/-! ## publish-packages.js -/

/-- The structured result value returned by `publishPackage` in
`my-lib/scripts/publish-packages.js`. -/
structure PublishResult where
  success : Bool
  skipped : Bool
deriving DecidableEq, Repr

/-- Outcome of the `npm publish --userconfig …` subprocess as observed by the
script: either it exits 0 with some stdout, or `execSync` throws an error
carrying `stderr`, `message` and `stdout` fields. -/
inductive NpmOutcome where
  | ok (output : String)
  | err (stderr message stdout : String)
deriving DecidableEq, Repr

/-- Embeds the 409-conflict test of `publishPackage`: the combined error text
contains `'409'`, `'E409'`, `'already exists'` or
`'cannot publish over existing version'`. -/
def isConflictError (combined : String) : Bool :=
  occursIn "409" combined ||
  occursIn "E409" combined ||
  occursIn "already exists" combined ||
  occursIn "cannot publish over existing version" combined

/-- The scratch credential file written by `createTemporaryNpmrc`:
its permission mode and its content. -/
structure TempNpmrc where
  mode : Nat
  content : String
deriving DecidableEq, Repr

/-- Embeds `createTemporaryNpmrc(registryUrl, authToken)`: a fresh `.npmrc`
written with mode `0o600` holding the scoped-registry line and the
`_authToken` line (the script strips only the protocol from the URL). -/
def createTemporaryNpmrc (registryUrl authToken : String) : TempNpmrc :=
  let registryHost := stripProtocol registryUrl
  { mode := 0o600,
    content := "@myorg:registry=" ++ registryUrl ++ "\n//" ++ registryHost
      ++ "/:_authToken=" ++ authToken }

/-- Process-level state threaded through `publishPackage`: the current working
directory and the scratch credential file currently existing on disk. -/
structure ProcState where
  cwd : String
  liveTempNpmrc : Option TempNpmrc
deriving DecidableEq, Repr

/-- The full observable effect of one `publishPackage` invocation: the final
process state, the structured result, and the scratch credential file that was
created during the call (`none` when the call failed before creating it). -/
structure PublishRun where
  state : ProcState
  result : PublishResult
  created : Option TempNpmrc
deriving DecidableEq, Repr

/-- Embeds `publishPackage(packagePath, packageName, registryUrl, authToken)`
of `my-lib/scripts/publish-packages.js` as a state-passing function.
`packageJsonExists` abstracts `fs.existsSync(path.join(packagePath,
'package.json'))`; `npmrcOk` abstracts whether `createTemporaryNpmrc`
succeeds (a throw there is caught by the outer `catch`); `npm` is the
subprocess outcome.  The `finally` block always restores the original working
directory and removes the scratch `.npmrc`. -/
def publishPackageRun (st : ProcState) (packagePath registryUrl authToken : String)
    (packageJsonExists npmrcOk : Bool) (npm : NpmOutcome) : PublishRun :=
  let originalDir := st.cwd
  if !packageJsonExists then
    -- early return { success: false, skipped: false }; finally restores cwd,
    -- npmrcPath is still null so no cleanup happens
    { state := { cwd := originalDir, liveTempNpmrc := st.liveTempNpmrc },
      result := { success := false, skipped := false },
      created := none }
  else if !npmrcOk then
    -- createTemporaryNpmrc threw: caught by the outer catch, finally restores
    -- cwd; npmrcPath is null, nothing to clean up
    { state := { cwd := originalDir, liveTempNpmrc := st.liveTempNpmrc },
      result := { success := false, skipped := false },
      created := none }
  else
    let npmrc := createTemporaryNpmrc registryUrl authToken
    -- process.chdir(packagePath); npm publish runs; finally chdirs back and
    -- removes the temporary directory holding the scratch .npmrc
    let finalState : ProcState := { cwd := originalDir, liveTempNpmrc := none }
    match npm with
    | .ok _ =>
        { state := finalState,
          result := { success := true, skipped := false },
          created := some npmrc }
    | .err stderr message stdout =>
        let combinedError := stderr ++ message ++ stdout
        if isConflictError combinedError then
          { state := finalState,
            result := { success := true, skipped := true },
            created := some npmrc }
        else
          -- rethrown, caught by the outer catch → failure result
          { state := finalState,
            result := { success := false, skipped := false },
            created := some npmrc }

/-- The structured result of `publishPackage`, ignoring the effects. -/
def publishPackage (st : ProcState) (packagePath registryUrl authToken : String)
    (packageJsonExists npmrcOk : Bool) (npm : NpmOutcome) : PublishResult :=
  (publishPackageRun st packagePath registryUrl authToken packageJsonExists npmrcOk npm).result

/-! ## create-infrastructure.js

The `ensureDomain` / `ensureRepository` / `ensureExternalConnection` wrappers
live in `scripts/create-infrastructure.js`; the `AWSCodeArtifactClient` they
call is not part of the sources, so its operations are modelled from the
spec (idempotent resource creation against a registry state). -/

/-- A file on disk: its content and its permission mode. -/
structure FsFile where
  content : String
  mode : Nat
deriving DecidableEq, Repr

/-- The filesystem as seen by `generate-npmrc.js`: a finite map from absolute
path to file, plus the set of existing directories. -/
structure Fsys where
  files : List (String × FsFile)
  dirs : List String
deriving DecidableEq, Repr

/-- First-match association-list lookup (paths are unique keys, so first
match is the only match). -/
def lookupAssoc : List (String × FsFile) → String → Option FsFile
  | [], _ => none
  | (k, v) :: t, p => if k = p then some v else lookupAssoc t p

/-- First-match association-list update: overwrite in place, append when the
key is new (the observable behavior of `fs.writeFile`). -/
def writeAssoc : List (String × FsFile) → String → FsFile → List (String × FsFile)
  | [], p, f => [(p, f)]
  | (k, v) :: t, p, f => if k = p then (p, f) :: t else (k, v) :: writeAssoc t p f

/-- First-match mode change (the observable behavior of `fs.chmod`). -/
def chmodAssoc : List (String × FsFile) → String → Nat → List (String × FsFile)
  | [], _, _ => []
  | (k, v) :: t, p, m =>
    if k = p then (k, { v with mode := m }) :: t else (k, v) :: chmodAssoc t p m

/-- Look a path up in the filesystem. -/
def Fsys.lookup (fs : Fsys) (p : String) : Option FsFile :=
  lookupAssoc fs.files p

/-- Write (create or overwrite) a file at a path. -/
def Fsys.write (fs : Fsys) (p : String) (f : FsFile) : Fsys :=
  { fs with files := writeAssoc fs.files p f }

/-- Embeds `fs.chmod`: change the mode of an existing file (no-op on a missing one,
which never happens in the embedded flows). -/
def Fsys.chmod (fs : Fsys) (p : String) (m : Nat) : Fsys :=
  { fs with files := chmodAssoc fs.files p m }

/-- Embeds JavaScript `lines.join('\n')`. -/
def joinLines : List String → String
  | [] => ""
  | [l] => l
  | l :: ls => l ++ "\n" ++ joinLines ls

/-- Embeds `formatNpmrcContent(registryUrl, authToken, scope)`.  The
`new Date().toISOString()` stamp is passed in as `generatedAt`. -/
def formatNpmrcContent (registryUrl authToken scope generatedAt : String) : String :=
  let normalizedScope := if strStartsWith "@" scope then scope else "@" ++ scope
  let registryHost := stripTrailingSlash (stripProtocol registryUrl)
  joinLines
    [ "# AWS CodeArtifact Registry Configuration",
      "# Generated: " ++ generatedAt,
      "",
      "# Registry URL for scoped packages",
      normalizedScope ++ ":registry=" ++ registryUrl,
      "",
      "# Authentication token",
      "//" ++ registryHost ++ "/:always-auth=true",
      "//" ++ registryHost ++ "/:_authToken=" ++ authToken,
      "" ]

/-- Embeds `backupExistingNpmrc(targetDir)`: when `<targetDir>/.npmrc` exists,
copy it to `<targetDir>/.npmrc.backup.<timestamp>` and report `true`;
otherwise report `false`.  `timestamp` is the sanitized ISO stamp the script
computes from `new Date()`. -/
def backupExistingNpmrc (fs : Fsys) (targetDir timestamp : String) : Fsys × Bool :=
  match fs.lookup (targetDir ++ "/.npmrc") with
  | some f => (fs.write (targetDir ++ "/.npmrc.backup." ++ timestamp) f, true)
  | none => (fs, false)

/-- Embeds `generateNpmrc(targetDir, registryUrl, authToken, scope)`: fail when
the target directory is missing, otherwise back up any existing `.npmrc`,
write the formatted content, and chmod the file to `0o600`. -/
def generateNpmrc (fs : Fsys) (targetDir registryUrl authToken scope
    timestamp generatedAt : String) : Except String Fsys :=
  if !fs.dirs.contains targetDir then
    .error ("Target directory does not exist: " ++ targetDir)
  else
    let fs1 := (backupExistingNpmrc fs targetDir timestamp).1
    let content := formatNpmrcContent registryUrl authToken scope generatedAt
    let fs2 := fs1.write (targetDir ++ "/.npmrc") { content := content, mode := 0o644 }
    let fs3 := fs2.chmod (targetDir ++ "/.npmrc") 0o600
    .ok fs3

/-! ## publish-packages.js, type dispatch -/

/-- The ordered sequence of package names published when
`publish-packages.js` runs with publish type `all`, given the directory names
found under `services/` and `utilities/`: individual service packages, the
services aggregate, individual utility packages, the utilities aggregate, and
finally the main package. -/
def publishOrderAll (services utilities : List String) : List String :=
  (services.map (fun n => "@myorg/" ++ n)) ++ ["@myorg/services"] ++
  (utilities.map (fun n => "@myorg/" ++ n)) ++ ["@myorg/utilities"] ++
  ["@myorg/libraries"]

/-! ## DeploymentManager (the serverless deployment script embedded after the
separator in src/README.md)

`needsDeployment` (lines 2409-2455) is the change-detection decision, the
selection loop of `deployAllModules` (lines 2889-2901) applies it (or the
`forceAll` bypass), and the batching loop (lines 2924-2946) drives the
deployments in concurrency-sized batches with a 3-second pacing delay
between batches. -/

/-- A per-module record of the deployment state document, as written by
`buildNewState`: the deploy timestamp, the git commit recorded at deploy time
(`getCurrentGitCommit` can return `null`), the module content hash, and the
stage.  Fields read from a state file may be absent, so the compared ones are
optional. -/
structure PrevModuleState where
  deployedAt : String
  gitCommit : Option String
  fileHash : Option String
  stage : String
deriving DecidableEq, Repr

/-- The result object returned by `needsDeployment`: the flag and the reason
string (one of `first-deployment`, `no-git`, `git-changes`, `no-git-changes`,
`same-commit`, `file-changes`, `no-changes`). -/
structure ChangeCheck where
  needsDeployment : Bool
  reason : String
deriving DecidableEq, Repr

/-- Embeds `needsDeployment(module, previousState)` of the DeploymentManager
(src/README.md lines 2409-2455).  The effectful lookups the method performs —
`getCurrentGitCommit()`, `hasGitChanges(module.path, lastDeployedCommit)` and
`calculateModuleHash(module.path).hash` — are passed in as data:
`currentCommit` is the current git commit (`none` when git is unavailable),
`gitHasChanges` the result of the git-diff check, and `currentHash` the
module's content hash. -/
def needsDeployment (stage : String) (previousModuleState : Option PrevModuleState)
    (currentCommit : Option String) (gitHasChanges : Bool)
    (currentHash : String) : ChangeCheck :=
  match previousModuleState with
  | none => { needsDeployment := true, reason := "first-deployment" }
  | some prev =>
    if stage = "prod" then
      match currentCommit with
      | none => { needsDeployment := true, reason := "no-git" }
      | some current =>
        if !(prev.gitCommit = some current) then
          if gitHasChanges then { needsDeployment := true, reason := "git-changes" }
          else { needsDeployment := false, reason := "no-git-changes" }
        else { needsDeployment := false, reason := "same-commit" }
    else
      if !(prev.fileHash = some currentHash) then
        { needsDeployment := true, reason := "file-changes" }
      else
        { needsDeployment := false, reason := "no-changes" }

/-- Embeds the selection loop of `deployAllModules` (src/README.md lines
2889-2901): with `forceAll` set every module goes straight into
`modulesToDeploy` without consulting `needsDeployment` and without recording
any reason; otherwise the change check routes the module into
`modulesToDeploy`, or into `skippedModules` paired with its reason. -/
def filterModules (forceAll : Bool) (modules : List String)
    (check : String → ChangeCheck) : List String × List (String × String) :=
  match modules with
  | [] => ([], [])
  | m :: rest =>
    let r := filterModules forceAll rest check
    if forceAll then (m :: r.1, r.2)
    else if (check m).needsDeployment then (m :: r.1, r.2)
    else (r.1, (m, (check m).reason) :: r.2)

/-- The batch partition computed by the batching loop of `deployAllModules`
(src/README.md lines 2924-2927): batch after batch is
`modulesToDeploy.slice(i, i + concurrency)` for `i = 0, concurrency,
2*concurrency, …` — consecutive chunks of `concurrency` modules, the last
possibly smaller.  With `n = 0` the loop would not advance; the CLI validates
the concurrency into `[1,3]`, and the case is totalized as a single chunk. -/
def chunksOf (n : Nat) : List α → List (List α)
  | [] => []
  | a :: t =>
    if hn : n = 0 then [a :: t]
    else (a :: t).take n :: chunksOf n ((a :: t).drop n)
termination_by l => l.length
decreasing_by
  simp only [List.length_drop, List.length_cons]
  omega

/-- An event in the deployment loop's trace: launching a module's deploy
action, a module's deploy action settling (with its success flag), or the
inter-batch pacing delay. -/
inductive BatchEvent (α : Type) where
  | launch (m : α)
  | settle (m : α) (success : Bool)
  | delay
deriving DecidableEq, Repr

/-- The trace of one batch body (src/README.md lines 2932-2939):
`batch.map(... this.deployModule(module))` creates every member's promise —
launching them all — before `Promise.all` awaits any, and `deployModule`
catches its own failures and always resolves with a structured outcome, so
every member settles with its own success flag and one member's failure never
rejects its batch siblings. -/
def batchTrace (outcome : α → Bool) (b : List α) : List (BatchEvent α) :=
  b.map BatchEvent.launch ++ b.map (fun m => BatchEvent.settle m (outcome m))

/-- Helper shape for stating what the loop produces: the batch traces joined
with exactly one pacing delay between consecutive batches and none after the
last.  `deployBatches_eq_joinWithDelay` proves the loop's trace has this
shape. -/
def joinWithDelay (outcome : α → Bool) : List (List α) → List (BatchEvent α)
  | [] => []
  | [b] => batchTrace outcome b
  | b :: bs => batchTrace outcome b ++ [BatchEvent.delay] ++ joinWithDelay outcome bs

/-- Embeds the batching loop of `deployAllModules` (src/README.md lines
2924-2946) as an event trace: take the next `concurrency` modules
(`slice(i, i + concurrency)`), run the batch body, and insert the 3-second
pacing delay only when more modules remain
(`if (i + concurrency < modulesToDeploy.length)`), i.e. between batches and
never after the last one. -/
def deployBatches (outcome : α → Bool) (concurrency : Nat) :
    List α → List (BatchEvent α)
  | [] => []
  | a :: t =>
    if hn : concurrency = 0 then batchTrace outcome (a :: t)
    else
      batchTrace outcome ((a :: t).take concurrency) ++
        (if ((a :: t).drop concurrency).isEmpty then [] else [BatchEvent.delay]) ++
        deployBatches outcome concurrency ((a :: t).drop concurrency)
termination_by l => l.length
decreasing_by
  simp only [List.length_drop, List.length_cons]
  omega

/-- Count the pacing delays in a trace. -/
def delayCount (t : List (BatchEvent α)) : Nat :=
  t.countP (fun e => match e with | .delay => true | _ => false)

/-! ## configure-packages.js -/

/-- A JSON value, as manipulated by `updatePackageJson`. -/
inductive JVal where
  | str (s : String)
  | num (n : Int)
  | bool (b : Bool)
  | null
  | obj (fields : List (String × JVal))
  | arr (elems : List JVal)

/-- JavaScript truthiness of a field access on a parsed JSON object:
`none` is `undefined`. -/
def jsTruthy : Option JVal → Bool
  | none => false
  | some (.str s) => !(s = "")
  | some (.num n) => !(n = 0)
  | some (.bool b) => b
  | some .null => false
  | some (.obj _) => true
  | some (.arr _) => true

/-- Field lookup on a JSON object (association list, first match; keys are
unique in a parsed JSON object). -/
def jsonGet : List (String × JVal) → String → Option JVal
  | [], _ => none
  | (k', v) :: t, k => if k' = k then some v else jsonGet t k

/-- Property assignment `obj[k] = v`: replace the value in place when the key
exists, append it otherwise (JavaScript objects keep insertion order). -/
def jsonSet : List (String × JVal) → String → JVal → List (String × JVal)
  | [], k, v => [(k, v)]
  | (k', v') :: t, k, v =>
    if k' = k then (k, v) :: t else (k', v') :: jsonSet t k v

/-- Property deletion `delete obj[k]`. -/
def jsonDelete (fields : List (String × JVal)) (k : String) :
    List (String × JVal) :=
  fields.filter (fun p => !(p.1 = k))

/-- Embeds `updatePackageJson(packagePath, registryUrl)` of
`my-lib/scripts/configure-packages.js` on the parsed `package.json` object:
`none` stands for a directory without a `package.json` (skipped untouched);
otherwise `publishConfig` is set to `{ registry: registryUrl }` and the
`private` field is deleted when (and only when) it is truthy. -/
def updatePackageJson (pkg : Option (List (String × JVal))) (registryUrl : String) :
    Option (List (String × JVal)) :=
  match pkg with
  | none => none
  | some fields =>
    let fields1 := jsonSet fields "publishConfig" (.obj [("registry", .str registryUrl)])
    let fields2 :=
      if jsTruthy (jsonGet fields1 "private") then jsonDelete fields1 "private"
      else fields1
    some fields2

end CodeArtifact

namespace CodeArtifact

example : occursIn "409" "npm ERR! code E409 conflict" = true := by decide

example : isConflictError "some random failure" = false := by decide

example :
    publishPackage ⟨"/home", none⟩ "/pkg" "https://r.example/npm/" "tok" true true
      (.err "npm ERR! cannot publish over existing version" "" "") =
      { success := true, skipped := true } := by decide

example :
    publishPackage ⟨"/home", none⟩ "/pkg" "https://r.example/npm/" "tok" true true
      (.err "ENETDOWN" "network sad" "") =
      { success := false, skipped := false } := by decide

theorem listStartsWith_append_self (n rest : List Char) :
    listStartsWith n (n ++ rest) = true := by
  induction n with
  | nil => rfl
  | cons a as ih => simp [listStartsWith, ih]

theorem listContainsSub_append_self (pre n : List Char) :
    listContainsSub n (pre ++ n) = true := by
  induction pre with
  | nil =>
    cases n with
    | nil => rfl
    | cons c t =>
      have h := listStartsWith_append_self (c :: t) []
      simp only [List.append_nil] at h
      simp [listContainsSub, h]
  | cons c pre ih => simp [listContainsSub, ih]

/-- A string occurs in any string of which it is a suffix. -/
theorem occursIn_append_self (pre n : String) : occursIn n (pre ++ n) = true := by
  simp [occursIn, String.data_append, listContainsSub_append_self]

/-- C1: a failed `npm publish` whose combined stderr/message/stdout output
contains one of the conflict markers (`409`, `E409`, `already exists`,
`cannot publish over existing version`) makes `publishPackage` return
`{ success: true, skipped: true }`; any other publish failure yields
`{ success: false, skipped: false }`. -/
theorem publishPackage_conflict_tolerance (st : ProcState)
    (packagePath registryUrl authToken stderr message stdout : String) :
    publishPackage st packagePath registryUrl authToken true true
        (.err stderr message stdout) =
      (if isConflictError (stderr ++ message ++ stdout) then
        { success := true, skipped := true }
      else
        { success := false, skipped := false }) := by
  cases h : isConflictError (stderr ++ message ++ stdout) <;>
    simp [publishPackage, publishPackageRun, h]

/-- C10: `publishPackage` never throws — every error path (missing
`package.json`, failed temporary-credential setup, non-conflict npm error)
is converted into `{ success: false, skipped: false }`, and every invocation
returns one of the three structured results. -/
theorem publishPackage_total (st : ProcState)
    (packagePath registryUrl authToken : String) (packageJsonExists npmrcOk : Bool)
    (npm : NpmOutcome) :
    publishPackage st packagePath registryUrl authToken packageJsonExists npmrcOk npm ∈
        [({ success := true, skipped := false } : PublishResult),
         { success := true, skipped := true },
         { success := false, skipped := false }] ∧
    publishPackage st packagePath registryUrl authToken false npmrcOk npm =
      { success := false, skipped := false } ∧
    publishPackage st packagePath registryUrl authToken packageJsonExists false npm =
      { success := false, skipped := false } ∧
    (∀ stderr message stdout,
      isConflictError (stderr ++ message ++ stdout) = false →
      publishPackage st packagePath registryUrl authToken packageJsonExists npmrcOk
          (.err stderr message stdout) =
        { success := false, skipped := false }) := by
  refine ⟨?_, ?_, ?_, ?_⟩
  · cases packageJsonExists <;> cases npmrcOk <;> cases npm <;>
      simp [publishPackage, publishPackageRun] <;>
      try (split <;> simp)
  · cases npm <;> simp [publishPackage, publishPackageRun]
  · cases packageJsonExists <;> cases npm <;> simp [publishPackage, publishPackageRun]
  · intro stderr message stdout h
    cases packageJsonExists <;> cases npmrcOk <;>
      simp [publishPackage, publishPackageRun, h]

/-- C10 witness: a concrete non-conflict npm failure yields the structured
failure result. -/
theorem publishPackage_total_witness :
    publishPackage ⟨"/home", none⟩ "/pkg" "https://r" "tok" true true
        (.err "EPERM" "boom" "") =
      { success := false, skipped := false } :=
  (publishPackage_total ⟨"/home", none⟩ "/pkg" "https://r" "tok" true true
      (.err "EPERM" "boom" "")).2.2.2 "EPERM" "boom" "" (by decide)

/-- C8: every `publishPackage` invocation restores the original working
directory; whenever a scratch credential file was created, it has mode
`0o600`, embeds the auth token, and is gone from the final state; and on the
paths that reach the npm invocation the scratch file is exactly the one
`createTemporaryNpmrc` writes — in success, skip and failure cases alike. -/
theorem publishPackage_scratch_credential (st : ProcState)
    (packagePath registryUrl authToken : String) (packageJsonExists npmrcOk : Bool)
    (npm : NpmOutcome) :
    (publishPackageRun st packagePath registryUrl authToken packageJsonExists npmrcOk
        npm).state.cwd = st.cwd ∧
    (∀ f,
      (publishPackageRun st packagePath registryUrl authToken packageJsonExists npmrcOk
          npm).created = some f →
      (publishPackageRun st packagePath registryUrl authToken packageJsonExists npmrcOk
          npm).state.liveTempNpmrc = none ∧
      f.mode = 0o600 ∧
      occursIn ("_authToken=" ++ authToken) f.content = true) ∧
    (packageJsonExists = true → npmrcOk = true →
      (publishPackageRun st packagePath registryUrl authToken packageJsonExists npmrcOk
          npm).created = some (createTemporaryNpmrc registryUrl authToken)) := by
  have hocc : occursIn ("_authToken=" ++ authToken)
      (createTemporaryNpmrc registryUrl authToken).content = true := by
    have hsplit : ("@myorg:registry=" ++ registryUrl ++ "\n//"
        ++ stripProtocol registryUrl ++ "/:_authToken=" ++ authToken)
        = ("@myorg:registry=" ++ registryUrl ++ "\n//"
            ++ stripProtocol registryUrl ++ "/:") ++ ("_authToken=" ++ authToken) := by
      apply String.ext
      simp [String.data_append]
    simp only [createTemporaryNpmrc, hsplit]
    exact occursIn_append_self _ _
  refine ⟨?_, ?_, ?_⟩
  · cases packageJsonExists <;> cases npmrcOk <;> cases npm <;>
      simp [publishPackageRun] <;>
      try (split <;> simp)
  · intro f hf
    cases packageJsonExists with
    | false => simp [publishPackageRun] at hf
    | true =>
      cases npmrcOk with
      | false => simp [publishPackageRun] at hf
      | true =>
        cases npm with
        | ok o =>
          simp [publishPackageRun] at hf ⊢
          subst hf
          exact ⟨rfl, hocc⟩
        | err a b c =>
          by_cases hconf : isConflictError (a ++ b ++ c) = true <;>
            (simp [publishPackageRun, hconf] at hf ⊢; subst hf; exact ⟨rfl, hocc⟩)
  · intro h1 h2
    subst h1; subst h2
    cases npm <;> simp [publishPackageRun] <;>
      try (split <;> simp)

/-- C8 witness: a concrete skipped publish restores the directory, cleans up
the scratch file, and that file carried mode `0o600` and the token. -/
theorem publishPackage_scratch_credential_witness :
    (publishPackageRun ⟨"/home", none⟩ "/pkg" "https://r" "tok" true true
        (.err "E409" "" "")).state.liveTempNpmrc = none ∧
    (createTemporaryNpmrc "https://r" "tok").mode = 0o600 := by
  have h := publishPackage_scratch_credential ⟨"/home", none⟩ "/pkg" "https://r" "tok"
    true true (.err "E409" "" "")
  have hc := h.2.2 rfl rfl
  exact ⟨(h.2.1 _ hc).1, (h.2.1 _ hc).2.1⟩

theorem lookupAssoc_writeAssoc_self (l : List (String × FsFile)) (p : String) (f : FsFile) :
    lookupAssoc (writeAssoc l p f) p = some f := by
  induction l with
  | nil => simp [writeAssoc, lookupAssoc]
  | cons q t ih =>
    obtain ⟨k, v⟩ := q
    by_cases h : k = p <;> simp [writeAssoc, lookupAssoc, h, ih]

theorem lookupAssoc_writeAssoc_ne (l : List (String × FsFile)) (p q : String) (f : FsFile)
    (h : q ≠ p) : lookupAssoc (writeAssoc l p f) q = lookupAssoc l q := by
  induction l with
  | nil => simp [writeAssoc, lookupAssoc, Ne.symm h]
  | cons a t ih =>
    obtain ⟨k, v⟩ := a
    by_cases hk : k = p <;> simp [writeAssoc, lookupAssoc, hk, ih, Ne.symm h]

theorem lookupAssoc_chmodAssoc_self (l : List (String × FsFile)) (p : String) (m : Nat) :
    lookupAssoc (chmodAssoc l p m) p =
      (lookupAssoc l p).map (fun f => { f with mode := m }) := by
  induction l with
  | nil => simp [chmodAssoc, lookupAssoc]
  | cons a t ih =>
    obtain ⟨k, v⟩ := a
    by_cases h : k = p <;> simp [chmodAssoc, lookupAssoc, h, ih]

theorem lookupAssoc_chmodAssoc_ne (l : List (String × FsFile)) (p q : String) (m : Nat)
    (h : q ≠ p) : lookupAssoc (chmodAssoc l p m) q = lookupAssoc l q := by
  induction l with
  | nil => simp [chmodAssoc, lookupAssoc]
  | cons a t ih =>
    obtain ⟨k, v⟩ := a
    by_cases hk : k = p <;> simp [chmodAssoc, lookupAssoc, hk, ih, Ne.symm h]

/-- The backup path is always distinct from the `.npmrc` path itself. -/
theorem backupPath_ne_npmrcPath (dir ts : String) :
    dir ++ "/.npmrc.backup." ++ ts ≠ dir ++ "/.npmrc" := by
  intro h
  have hlen := congrArg String.length h
  have h15 : ("/.npmrc.backup." : String).length = 15 := rfl
  have h7 : ("/.npmrc" : String).length = 7 := rfl
  simp [String.length_append, h15, h7] at hlen
  omega

/-- C3: when the target directory exists, `generateNpmrc` first copies any
pre-existing `.npmrc` to `.npmrc.backup.<timestamp>` before overwriting, so
the old content is preserved; when no `.npmrc` exists, no file other than the
`.npmrc` itself is touched (in particular no backup is created). -/
theorem generateNpmrc_backs_up (fs : Fsys)
    (targetDir registryUrl authToken scope timestamp generatedAt : String)
    (hdir : fs.dirs.contains targetDir = true) :
    ∃ fs', generateNpmrc fs targetDir registryUrl authToken scope timestamp generatedAt
        = .ok fs' ∧
      (∀ f, fs.lookup (targetDir ++ "/.npmrc") = some f →
        fs'.lookup (targetDir ++ "/.npmrc.backup." ++ timestamp) = some f) ∧
      (fs.lookup (targetDir ++ "/.npmrc") = none →
        ∀ p, p ≠ targetDir ++ "/.npmrc" → fs'.lookup p = fs.lookup p) := by
  have hdir' : targetDir ∈ fs.dirs := by simpa using hdir
  refine ⟨((backupExistingNpmrc fs targetDir timestamp).1.write (targetDir ++ "/.npmrc")
      { content := formatNpmrcContent registryUrl authToken scope generatedAt,
        mode := 0o644 }).chmod (targetDir ++ "/.npmrc") 0o600,
    by simp [generateNpmrc, hdir'], ?_, ?_⟩
  · intro f hf
    simp only [backupExistingNpmrc, hf]
    simp only [Fsys.lookup, Fsys.write, Fsys.chmod]
    rw [lookupAssoc_chmodAssoc_ne _ _ _ _ (backupPath_ne_npmrcPath targetDir timestamp),
      lookupAssoc_writeAssoc_ne _ _ _ _ (backupPath_ne_npmrcPath targetDir timestamp),
      lookupAssoc_writeAssoc_self]
  · intro hf p hp
    simp only [backupExistingNpmrc, hf]
    simp only [Fsys.lookup, Fsys.write, Fsys.chmod]
    rw [lookupAssoc_chmodAssoc_ne _ _ _ _ hp, lookupAssoc_writeAssoc_ne _ _ _ _ hp]

/-- C3 witness: with a pre-existing `.npmrc`, its content survives at the
timestamped backup path; with none, the backup path stays empty. -/
theorem generateNpmrc_backs_up_witness :
    (∃ fs', generateNpmrc ⟨[("/a/.npmrc", ⟨"old", 0o644⟩)], ["/a"]⟩ "/a" "https://r" "tok"
        "@myorg" "ts" "now" = .ok fs' ∧
      fs'.lookup "/a/.npmrc.backup.ts" = some ⟨"old", 0o644⟩) ∧
    (∃ fs', generateNpmrc ⟨[], ["/a"]⟩ "/a" "https://r" "tok" "@myorg" "ts" "now" = .ok fs' ∧
      fs'.lookup "/a/.npmrc.backup.ts" = none) := by
  constructor
  · obtain ⟨fs', hok, hback, -⟩ :=
      generateNpmrc_backs_up ⟨[("/a/.npmrc", ⟨"old", 0o644⟩)], ["/a"]⟩ "/a" "https://r"
        "tok" "@myorg" "ts" "now" (by decide)
    exact ⟨fs', hok, hback ⟨"old", 0o644⟩ (by decide)⟩
  · obtain ⟨fs', hok, -, hframe⟩ :=
      generateNpmrc_backs_up ⟨[], ["/a"]⟩ "/a" "https://r" "tok" "@myorg" "ts" "now"
        (by decide)
    refine ⟨fs', hok, ?_⟩
    rw [hframe (by decide) "/a/.npmrc.backup.ts" (by decide)]
    decide

theorem listContainsSub_self_append (n suf : List Char) :
    listContainsSub n (n ++ suf) = true := by
  cases n with
  | nil => cases suf <;> simp [listContainsSub, listStartsWith]
  | cons a t =>
    have h := listStartsWith_append_self (a :: t) suf
    simp only [List.cons_append] at h
    simp [listContainsSub, h]

theorem listContainsSub_append_left (h1 h2 n : List Char)
    (h : listContainsSub n h2 = true) : listContainsSub n (h1 ++ h2) = true := by
  induction h1 with
  | nil => simpa using h
  | cons a t ih => simp [listContainsSub, ih]

/-- Every line fed to `joinLines` occurs in the joined string. -/
theorem occursIn_joinLines (x : String) (l : List String) (h : x ∈ l) :
    occursIn x (joinLines l) = true := by
  induction l with
  | nil => cases h
  | cons a t ih =>
    cases t with
    | nil =>
      simp only [List.mem_singleton] at h
      subst h
      have := listContainsSub_self_append x.data []
      simpa [occursIn, joinLines] using this
    | cons b t2 =>
      rcases List.mem_cons.mp h with rfl | hmem
      · have := listContainsSub_self_append x.data
          ("\n".data ++ (joinLines (b :: t2)).data)
        simpa [occursIn, joinLines, String.data_append] using this
      · have := listContainsSub_append_left (a.data ++ "\n".data)
          (joinLines (b :: t2)).data x.data (by simpa [occursIn] using ih hmem)
        simpa [occursIn, joinLines, String.data_append] using this

/-- C4: the `.npmrc` written by `generateNpmrc` carries the registry line for
the normalized scope, the `always-auth` line and the `_authToken` bearer line
for the registry host, and ends up with permissions `0o600`. -/
theorem generateNpmrc_content_and_mode (fs : Fsys)
    (targetDir registryUrl authToken scope timestamp generatedAt : String)
    (hdir : fs.dirs.contains targetDir = true) :
    ∃ fs', generateNpmrc fs targetDir registryUrl authToken scope timestamp generatedAt
        = .ok fs' ∧
      fs'.lookup (targetDir ++ "/.npmrc") =
        some { content := formatNpmrcContent registryUrl authToken scope generatedAt,
               mode := 0o600 } ∧
      occursIn ((if strStartsWith "@" scope then scope else "@" ++ scope)
          ++ ":registry=" ++ registryUrl)
        (formatNpmrcContent registryUrl authToken scope generatedAt) = true ∧
      occursIn ("//" ++ stripTrailingSlash (stripProtocol registryUrl)
          ++ "/:always-auth=true")
        (formatNpmrcContent registryUrl authToken scope generatedAt) = true ∧
      occursIn ("//" ++ stripTrailingSlash (stripProtocol registryUrl)
          ++ "/:_authToken=" ++ authToken)
        (formatNpmrcContent registryUrl authToken scope generatedAt) = true := by
  have hdir' : targetDir ∈ fs.dirs := by simpa using hdir
  refine ⟨((backupExistingNpmrc fs targetDir timestamp).1.write (targetDir ++ "/.npmrc")
      { content := formatNpmrcContent registryUrl authToken scope generatedAt,
        mode := 0o644 }).chmod (targetDir ++ "/.npmrc") 0o600,
    by simp [generateNpmrc, hdir'], ?_, ?_, ?_, ?_⟩
  · simp only [Fsys.lookup, Fsys.write, Fsys.chmod]
    rw [lookupAssoc_chmodAssoc_self, lookupAssoc_writeAssoc_self]
    rfl
  · exact occursIn_joinLines _ _ (by simp [formatNpmrcContent])
  · exact occursIn_joinLines _ _ (by simp [formatNpmrcContent])
  · exact occursIn_joinLines _ _ (by simp [formatNpmrcContent])

/-- C4 witness: a concrete run writes the expected lines with mode `0o600`. -/
theorem generateNpmrc_content_and_mode_witness :
    ∃ fs', generateNpmrc ⟨[], ["/a"]⟩ "/a" "https://host/npm/repo/" "tok" "myorg" "ts" "now"
        = .ok fs' ∧
      fs'.lookup "/a/.npmrc" =
        some { content := formatNpmrcContent "https://host/npm/repo/" "tok" "myorg" "now",
               mode := 0o600 } ∧
      occursIn "@myorg:registry=https://host/npm/repo/"
        (formatNpmrcContent "https://host/npm/repo/" "tok" "myorg" "now") = true := by
  obtain ⟨fs', hok, hfile, -, -, -⟩ :=
    generateNpmrc_content_and_mode ⟨[], ["/a"]⟩ "/a" "https://host/npm/repo/" "tok"
      "myorg" "ts" "now" (by decide)
  exact ⟨fs', hok, hfile, by decide⟩

theorem myorg_tag_inj {a b : String} (h : "@myorg/" ++ a = "@myorg/" ++ b) : a = b := by
  apply String.ext
  have hd := congrArg String.data h
  simpa [String.data_append] using hd

theorem not_mem_tagged {x y : String} (l : List String) (hx : x ∉ l)
    (hxy : y = "@myorg/" ++ x) : y ∉ l.map (fun n => "@myorg/" ++ n) := by
  intro hmem
  obtain ⟨n, hn, heq⟩ := List.mem_map.mp hmem
  rw [hxy] at heq
  exact hx (myorg_tag_inj heq ▸ hn)

/-- C5: with publish type `all`, every individual service package is
published before the services aggregate, every individual utility package
before the utilities aggregate, and the main package `@myorg/libraries`
after everything else (hypotheses rule out directory names that would
collide with the aggregate package names). -/
theorem publishOrderAll_order (services utilities : List String)
    (hs1 : "services" ∉ services) (hs2 : "utilities" ∉ services)
    (hs3 : "libraries" ∉ services)
    (hu1 : "services" ∉ utilities) (hu2 : "utilities" ∉ utilities)
    (hu3 : "libraries" ∉ utilities) :
    (∀ s ∈ services,
      List.indexOf ("@myorg/" ++ s) (publishOrderAll services utilities) <
      List.indexOf "@myorg/services" (publishOrderAll services utilities)) ∧
    (∀ u ∈ utilities,
      List.indexOf ("@myorg/" ++ u) (publishOrderAll services utilities) <
      List.indexOf "@myorg/utilities" (publishOrderAll services utilities)) ∧
    (∀ p ∈ publishOrderAll services utilities, p ≠ "@myorg/libraries" →
      List.indexOf p (publishOrderAll services utilities) <
      List.indexOf "@myorg/libraries" (publishOrderAll services utilities)) := by
  classical
  set svcM := services.map (fun n => "@myorg/" ++ n) with hsvc
  set utlM := utilities.map (fun n => "@myorg/" ++ n) with hutl
  have hL : publishOrderAll services utilities =
      svcM ++ ("@myorg/services" :: (utlM ++ ("@myorg/utilities" :: ["@myorg/libraries"]))) := by
    simp [publishOrderAll, hsvc, hutl]
  have hnotS1 : "@myorg/services" ∉ svcM := not_mem_tagged services hs1 rfl
  have hnotU1 : "@myorg/utilities" ∉ svcM := not_mem_tagged services hs2 rfl
  have hnotU2 : "@myorg/utilities" ∉ utlM := not_mem_tagged utilities hu2 rfl
  have hnotL1 : "@myorg/libraries" ∉ svcM := not_mem_tagged services hs3 rfl
  have hnotL2 : "@myorg/libraries" ∉ utlM := not_mem_tagged utilities hu3 rfl
  have hney0 : "@myorg/utilities" ≠ "@myorg/services" := by decide
  have hney1 : "@myorg/libraries" ≠ "@myorg/services" := by decide
  have hney2 : "@myorg/libraries" ≠ "@myorg/utilities" := by decide
  refine ⟨?_, ?_, ?_⟩
  · intro s hs
    have hmem : ("@myorg/" ++ s) ∈ svcM := List.mem_map.mpr ⟨s, hs, rfl⟩
    rw [hL, List.indexOf_append_of_mem hmem, List.indexOf_append_of_not_mem hnotS1,
      List.indexOf_cons_self]
    have := List.indexOf_lt_length.mpr hmem
    omega
  · intro u hu
    have hmem : ("@myorg/" ++ u) ∈ utlM := List.mem_map.mpr ⟨u, hu, rfl⟩
    have hagg : List.indexOf "@myorg/utilities" (publishOrderAll services utilities) =
        svcM.length + (utlM.length + 1) := by
      rw [hL, List.indexOf_append_of_not_mem hnotU1, List.indexOf_cons_ne _ hney0.symm,
        List.indexOf_append_of_not_mem hnotU2, List.indexOf_cons_self]
    by_cases hin : ("@myorg/" ++ u) ∈ svcM
    · have h1 : List.indexOf ("@myorg/" ++ u) (publishOrderAll services utilities) =
          List.indexOf ("@myorg/" ++ u) svcM := by
        rw [hL, List.indexOf_append_of_mem hin]
      have := List.indexOf_lt_length.mpr hin
      rw [h1, hagg]
      omega
    · have hne2 : ("@myorg/" ++ u) ≠ "@myorg/services" := by
        intro hcc
        have hus : u = "services" := myorg_tag_inj (hcc.trans (by decide))
        exact hu1 (hus ▸ hu)
      have h1 : List.indexOf ("@myorg/" ++ u) (publishOrderAll services utilities) =
          svcM.length + (1 + List.indexOf ("@myorg/" ++ u) utlM) := by
        rw [hL, List.indexOf_append_of_not_mem hin, List.indexOf_cons_ne _ hne2.symm]
        rw [List.indexOf_append_of_mem hmem]
        omega
      have := List.indexOf_lt_length.mpr hmem
      rw [h1, hagg]
      omega
  · intro p hp hpne
    have hpin : p ∈ (svcM ++ ("@myorg/services" :: (utlM ++ ["@myorg/utilities"]))) := by
      rw [hL] at hp
      simp only [List.mem_append, List.mem_cons, List.mem_singleton] at hp ⊢
      tauto
    have hno : "@myorg/libraries" ∉
        (svcM ++ ("@myorg/services" :: (utlM ++ ["@myorg/utilities"]))) := by
      simp only [List.mem_append, List.mem_cons, List.mem_singleton]
      push_neg
      exact ⟨hnotL1, hney1, hnotL2, hney2, List.not_mem_nil _⟩
    have hinit : publishOrderAll services utilities =
        (svcM ++ ("@myorg/services" :: (utlM ++ ["@myorg/utilities"]))) ++
          ["@myorg/libraries"] := by
      rw [hL]
      simp
    rw [hinit, List.indexOf_append_of_mem hpin, List.indexOf_append_of_not_mem hno,
      List.indexOf_cons_self]
    simpa using List.indexOf_lt_length.mpr hpin

/-- C5 witness: for concrete service directories `auth`, `api` and utility
directory `fmt`, the publish order respects the dependency ordering. -/
theorem publishOrderAll_order_witness :
    List.indexOf ("@myorg/" ++ "auth") (publishOrderAll ["auth", "api"] ["fmt"]) <
      List.indexOf "@myorg/services" (publishOrderAll ["auth", "api"] ["fmt"]) ∧
    List.indexOf ("@myorg/" ++ "fmt") (publishOrderAll ["auth", "api"] ["fmt"]) <
      List.indexOf "@myorg/utilities" (publishOrderAll ["auth", "api"] ["fmt"]) ∧
    List.indexOf "@myorg/utilities" (publishOrderAll ["auth", "api"] ["fmt"]) <
      List.indexOf "@myorg/libraries" (publishOrderAll ["auth", "api"] ["fmt"]) := by
  have h := publishOrderAll_order ["auth", "api"] ["fmt"]
    (by decide) (by decide) (by decide) (by decide) (by decide) (by decide)
  exact ⟨h.1 "auth" (by decide), h.2.1 "fmt" (by decide),
    h.2.2 "@myorg/utilities" (by decide) (by decide)⟩

/-- C6 counterexample: with the force flag set the code never produces a
decision with reason `forced` — the selection loop pushes the module into
`modulesToDeploy` without consulting `needsDeployment` and records no reason
at all (the skipped list stays empty and the deploy list carries bare module
names), and `needsDeployment` itself, evaluated at this module's previous
record, returns reason `same-commit`, not `forced`. -/
theorem forced_reason_counterexample :
    filterModules true ["module-a"]
        (fun _ => needsDeployment "prod"
          (some { deployedAt := "t", gitCommit := some "c", fileHash := some "h",
                  stage := "prod" })
          (some "c") false "h") = (["module-a"], []) ∧
    (needsDeployment "prod"
        (some { deployedAt := "t", gitCommit := some "c", fileHash := some "h",
                stage := "prod" })
        (some "c") false "h").reason = "same-commit" ∧
    ¬(needsDeployment "prod"
        (some { deployedAt := "t", gitCommit := some "c", fileHash := some "h",
                stage := "prod" })
        (some "c") false "h").reason = "forced" :=
  ⟨rfl, rfl, by decide⟩

/-- C6 (amended): with the force flag set, every module is selected for
deployment regardless of any previous record, but the selection bypasses the
decision function and records no reason (the code has no `forced` reason);
without force, a module with no previous record gets the decision
`{needsDeployment := true, reason := "first-deployment"}` and is selected. -/
theorem needsDeployment_force_first (modules : List String)
    (check : String → ChangeCheck) (stage : String) (currentCommit : Option String)
    (gitHasChanges : Bool) (currentHash : String) :
    filterModules true modules check = (modules, []) ∧
    needsDeployment stage none currentCommit gitHasChanges currentHash =
      { needsDeployment := true, reason := "first-deployment" } ∧
    (∀ m ∈ modules, (check m).needsDeployment = true →
      m ∈ (filterModules false modules check).1) := by
  refine ⟨?_, rfl, ?_⟩
  · induction modules with
    | nil => rfl
    | cons a t ih => simp [filterModules, ih]
  · induction modules with
    | nil =>
      intro m hm
      cases hm
    | cons a t ih =>
      intro m hm hneed
      rcases List.mem_cons.mp hm with rfl | hmem
      · simp [filterModules, hneed]
      · by_cases hc : (check a).needsDeployment = true
        · rw [show (filterModules false (a :: t) check).1 =
              a :: (filterModules false t check).1 from by simp [filterModules, hc]]
          exact List.mem_cons_of_mem a (ih m hmem hneed)
        · rw [show (filterModules false (a :: t) check).1 =
              (filterModules false t check).1 from by simp [filterModules, hc]]
          exact ih m hmem hneed

/-- C6 witness: forcing selects both modules with no skip reasons, and a
module with no previous record is selected by the unforced path. -/
theorem needsDeployment_force_first_witness :
    filterModules true ["m1", "m2"]
        (fun _ => { needsDeployment := false, reason := "no-changes" }) =
      (["m1", "m2"], []) ∧
    "m1" ∈ (filterModules false ["m1"]
        (fun _ => needsDeployment "dev" none none false "h")).1 := by
  have h1 := needsDeployment_force_first ["m1", "m2"]
    (fun _ => { needsDeployment := false, reason := "no-changes" }) "dev" none false "h"
  have h2 := needsDeployment_force_first ["m1"]
    (fun _ => needsDeployment "dev" none none false "h") "dev" none false "h"
  exact ⟨h1.1, h2.2.2 "m1" (by decide) rfl⟩

theorem chunksOf_flatten (n : Nat) (l : List α) : (chunksOf n l).flatten = l := by
  induction l using chunksOf.induct n with
  | case1 => simp [chunksOf]
  | case2 a t hn => simp [chunksOf, hn]
  | case3 a t hn ih =>
    rw [chunksOf]
    simp only [dif_neg hn, List.flatten]
    rw [ih]
    exact List.take_append_drop n (a :: t)

theorem chunksOf_eq_nil_iff (n : Nat) (l : List α) : chunksOf n l = [] ↔ l = [] := by
  cases l with
  | nil => simp [chunksOf]
  | cons a t =>
    rw [chunksOf]
    by_cases hn : n = 0 <;> simp [hn]

theorem chunksOf_mem_length (n : Nat) (hn : n ≠ 0) (l : List α) :
    ∀ b ∈ chunksOf n l, b ≠ [] ∧ b.length ≤ n := by
  induction l using chunksOf.induct n with
  | case1 => simp [chunksOf]
  | case2 a t h => exact absurd h hn
  | case3 a t h ih =>
    rw [chunksOf]
    simp only [dif_neg h]
    intro b hb
    rcases List.mem_cons.mp hb with rfl | hmem
    · refine ⟨by simpa using h, by simpa using List.length_take_le n (a :: t)⟩
    · exact ih b hmem

theorem chunksOf_dropLast_length (n : Nat) (hn : n ≠ 0) (l : List α) :
    ∀ b ∈ (chunksOf n l).dropLast, b.length = n := by
  induction l using chunksOf.induct n with
  | case1 => simp [chunksOf]
  | case2 a t h => exact absurd h hn
  | case3 a t h ih =>
    rw [chunksOf]
    simp only [dif_neg h]
    by_cases hrest : List.drop n (a :: t) = []
    · simp [hrest, chunksOf]
    · have hne : chunksOf n (List.drop n (a :: t)) ≠ [] := by
        simpa [chunksOf_eq_nil_iff] using hrest
      intro b hb
      rw [List.dropLast_cons_of_ne_nil hne] at hb
      rcases List.mem_cons.mp hb with rfl | hmem
      · have hlen : n < (a :: t).length := by
          by_contra hle
          push_neg at hle
          exact hrest (List.drop_eq_nil_of_le hle)
        rw [List.length_take]
        exact Nat.min_eq_left (Nat.le_of_lt hlen)
      · exact ih b hmem

theorem delayCount_batchTrace (outcome : α → Bool) (b : List α) :
    delayCount (batchTrace outcome b) = 0 := by
  simp [delayCount, batchTrace, List.countP_append, List.countP_map, Function.comp]

theorem delayCount_joinWithDelay (outcome : α → Bool) (bs : List (List α)) :
    delayCount (joinWithDelay outcome bs) = bs.length - 1 := by
  induction bs with
  | nil => simp [joinWithDelay, delayCount]
  | cons b bs ih =>
    cases bs with
    | nil => simpa [joinWithDelay] using delayCount_batchTrace outcome b
    | cons b2 t =>
      have hd : delayCount (batchTrace outcome b) = 0 := delayCount_batchTrace outcome b
      simp only [joinWithDelay, delayCount, List.countP_append] at hd ih ⊢
      simp [hd, ih]
      omega

theorem mem_joinWithDelay (outcome : α → Bool) (e : BatchEvent α) :
    ∀ (bs : List (List α)) (b : List α), b ∈ bs → e ∈ batchTrace outcome b →
      e ∈ joinWithDelay outcome bs
  | [], b, hb, _ => absurd hb (List.not_mem_nil b)
  | [hd], b, hb, he => by
      simp only [List.mem_singleton] at hb
      subst hb
      simpa [joinWithDelay] using he
  | hd :: h2 :: t2, b, hb, he => by
      rcases List.mem_cons.mp hb with rfl | hmem
      · simp [joinWithDelay, List.mem_append]
        exact Or.inl he
      · have hrec := mem_joinWithDelay outcome e (h2 :: t2) b hmem he
        simp [joinWithDelay, List.mem_append]
        exact Or.inr (Or.inr hrec)

/-- The loop's trace is the batch traces of the slice partition joined with
exactly one pacing delay between consecutive batches and none after the
last. -/
theorem deployBatches_eq_joinWithDelay (outcome : α → Bool) (n : Nat) (l : List α) :
    deployBatches outcome n l = joinWithDelay outcome (chunksOf n l) := by
  induction l using chunksOf.induct n with
  | case1 => simp [deployBatches, chunksOf, joinWithDelay]
  | case2 a t hn =>
    rw [deployBatches, chunksOf]
    simp [hn, joinWithDelay]
  | case3 a t hn ih =>
    rw [deployBatches, chunksOf]
    simp only [dif_neg hn]
    by_cases hrest : (a :: t).drop n = []
    · rw [hrest]
      simp [chunksOf, deployBatches, joinWithDelay]
    · have hch : chunksOf n ((a :: t).drop n) ≠ [] := by
        simpa [chunksOf_eq_nil_iff] using hrest
      obtain ⟨c, cs, hcons⟩ := List.exists_cons_of_ne_nil hch
      have hne : ((a :: t).drop n).isEmpty = false := by
        simpa [List.isEmpty_iff] using hrest
      rw [ih, hcons, hne]
      simp [joinWithDelay]

theorem settle_mem_deployBatches (modules : List α) (conc : Nat) (outcome : α → Bool)
    (m : α) (hm : m ∈ modules) :
    BatchEvent.settle m (outcome m) ∈ deployBatches outcome conc modules := by
  rw [deployBatches_eq_joinWithDelay]
  have hjoin : m ∈ (chunksOf conc modules).flatten := by
    rw [chunksOf_flatten]
    exact hm
  obtain ⟨b, hb, hmb⟩ := List.mem_flatten.mp hjoin
  have hset : BatchEvent.settle m (outcome m) ∈ batchTrace outcome b := by
    simp only [batchTrace, List.mem_append, List.mem_map]
    exact Or.inr ⟨m, hmb, rfl⟩
  exact mem_joinWithDelay outcome _ _ _ hb hset

/-- C7: the batching loop of `deployAllModules` runs exactly the consecutive
`slice`-partition batches joined with one pacing delay between consecutive
batches and none after the last; the partition concatenates back to the
module list, every batch is nonempty with size at most the concurrency and
every batch but the last has size exactly the concurrency; the trace carries
exactly `batches - 1` delays; and every module — whatever its outcome —
settles in the trace, so one member's failure never cancels its siblings. -/
theorem batch_executor_shape (modules : List String) (concurrency : Nat)
    (outcome : String → Bool) (h : 1 ≤ concurrency) :
    deployBatches outcome concurrency modules =
      joinWithDelay outcome (chunksOf concurrency modules) ∧
    (chunksOf concurrency modules).flatten = modules ∧
    (∀ b ∈ chunksOf concurrency modules, b ≠ [] ∧ b.length ≤ concurrency) ∧
    (∀ b ∈ (chunksOf concurrency modules).dropLast, b.length = concurrency) ∧
    delayCount (deployBatches outcome concurrency modules) =
      (chunksOf concurrency modules).length - 1 ∧
    (∀ m ∈ modules,
      BatchEvent.settle m (outcome m) ∈ deployBatches outcome concurrency modules) := by
  have hn : concurrency ≠ 0 := by omega
  refine ⟨deployBatches_eq_joinWithDelay _ _ _, chunksOf_flatten _ _,
    chunksOf_mem_length _ hn _, chunksOf_dropLast_length _ hn _, ?_,
    fun m hm => settle_mem_deployBatches _ _ _ _ hm⟩
  rw [deployBatches_eq_joinWithDelay]
  exact delayCount_joinWithDelay _ _

/-- C7 witness: for 5 modules and concurrency 2 the batches have sizes
`[2, 2, 1]`, there are exactly 2 inter-batch delays, and the batches
concatenate back to the module list. -/
theorem batch_executor_shape_witness :
    (chunksOf 2 ["m1", "m2", "m3", "m4", "m5"]).map List.length = [2, 2, 1] ∧
    delayCount (deployBatches (fun _ => true) 2 ["m1", "m2", "m3", "m4", "m5"]) = 2 ∧
    (chunksOf 2 ["m1", "m2", "m3", "m4", "m5"]).flatten = ["m1", "m2", "m3", "m4", "m5"] := by
  have h := batch_executor_shape ["m1", "m2", "m3", "m4", "m5"] 2 (fun _ => true)
    (by decide)
  refine ⟨by simp [chunksOf], ?_, h.2.1⟩
  rw [h.2.2.2.2.1]
  simp [chunksOf]

theorem jsonGet_jsonSet_self (fields : List (String × JVal)) (k : String) (v : JVal) :
    jsonGet (jsonSet fields k v) k = some v := by
  induction fields with
  | nil => simp [jsonSet, jsonGet]
  | cons p t ih =>
    obtain ⟨k', v'⟩ := p
    by_cases h : k' = k <;> simp [jsonSet, jsonGet, h, ih]

theorem jsonGet_jsonSet_ne (fields : List (String × JVal)) (k q : String) (v : JVal)
    (h : q ≠ k) : jsonGet (jsonSet fields k v) q = jsonGet fields q := by
  induction fields with
  | nil => simp [jsonSet, jsonGet, Ne.symm h]
  | cons p t ih =>
    obtain ⟨k', v'⟩ := p
    by_cases hk : k' = k <;> simp [jsonSet, jsonGet, hk, ih, Ne.symm h]

theorem jsonGet_jsonDelete_self (fields : List (String × JVal)) (k : String) :
    jsonGet (jsonDelete fields k) k = none := by
  induction fields with
  | nil => simp [jsonDelete, jsonGet]
  | cons p t ih =>
    obtain ⟨k', v'⟩ := p
    simp only [jsonDelete] at ih ⊢
    by_cases h : k' = k <;> simp [List.filter_cons, jsonGet, h, ih]

theorem jsonGet_jsonDelete_ne (fields : List (String × JVal)) (k q : String)
    (h : q ≠ k) : jsonGet (jsonDelete fields k) q = jsonGet fields q := by
  induction fields with
  | nil => simp [jsonDelete, jsonGet]
  | cons p t ih =>
    obtain ⟨k', v'⟩ := p
    simp only [jsonDelete] at ih ⊢
    by_cases hk : k' = k
    · simp [List.filter_cons, jsonGet, hk, ih, Ne.symm h]
    · by_cases hq : k' = q <;> simp [List.filter_cons, jsonGet, hk, hq, ih, h]

/-- C9 counterexample: a `package.json` whose `private` field is present but
falsy (here `private: false`) keeps its `private` field after
`updatePackageJson` — the code deletes `private` only when it is truthy, so
"the private field, if present, is deleted" fails on this input. -/
theorem updatePackageJson_keeps_falsy_private :
    updatePackageJson (some [("name", JVal.str "x"), ("private", JVal.bool false)])
        "https://registry.example/" =
      some [("name", JVal.str "x"), ("private", JVal.bool false),
        ("publishConfig", JVal.obj [("registry", JVal.str "https://registry.example/")])] ∧
    jsonGet ((updatePackageJson
        (some [("name", JVal.str "x"), ("private", JVal.bool false)])
        "https://registry.example/").getD []) "private" = some (JVal.bool false) :=
  ⟨rfl, rfl⟩

/-- C9 (amended): `updatePackageJson` sets `publishConfig` to
`{ registry: registryUrl }`, deletes `private` exactly when it is truthy
(a falsy `private` is left in place), leaves every other field unchanged,
and skips a directory without a `package.json`. -/
theorem updatePackageJson_frame (fields : List (String × JVal)) (registryUrl : String) :
    updatePackageJson none registryUrl = none ∧
    ∃ out, updatePackageJson (some fields) registryUrl = some out ∧
      jsonGet out "publishConfig" =
        some (JVal.obj [("registry", JVal.str registryUrl)]) ∧
      (jsTruthy (jsonGet fields "private") = true → jsonGet out "private" = none) ∧
      (jsTruthy (jsonGet fields "private") = false →
        jsonGet out "private" = jsonGet fields "private") ∧
      (∀ k, k ≠ "publishConfig" → k ≠ "private" → jsonGet out k = jsonGet fields k) := by
  refine ⟨rfl, ?_⟩
  have hpriv : jsonGet (jsonSet fields "publishConfig"
      (JVal.obj [("registry", JVal.str registryUrl)])) "private" =
      jsonGet fields "private" :=
    jsonGet_jsonSet_ne fields "publishConfig" "private" _ (by decide)
  by_cases h : jsTruthy (jsonGet fields "private") = true
  · refine ⟨jsonDelete (jsonSet fields "publishConfig"
        (JVal.obj [("registry", JVal.str registryUrl)])) "private", ?_, ?_, ?_, ?_, ?_⟩
    · simp [updatePackageJson, hpriv, h]
    · rw [jsonGet_jsonDelete_ne _ _ _ (by decide), jsonGet_jsonSet_self]
    · intro _
      exact jsonGet_jsonDelete_self _ _
    · intro hf
      rw [h] at hf
      cases hf
    · intro k hk1 hk2
      rw [jsonGet_jsonDelete_ne _ _ _ hk2, jsonGet_jsonSet_ne _ _ _ _ hk1]
  · have hb : jsTruthy (jsonGet fields "private") = false := by
      simpa using h
    refine ⟨jsonSet fields "publishConfig"
        (JVal.obj [("registry", JVal.str registryUrl)]), ?_, ?_, ?_, ?_, ?_⟩
    · simp [updatePackageJson, hpriv, hb]
    · exact jsonGet_jsonSet_self _ _ _
    · intro hf
      rw [hf] at hb
      cases hb
    · intro _
      exact hpriv
    · intro k hk1 _
      exact jsonGet_jsonSet_ne _ _ _ _ hk1

/-- C9 witness: a truthy `private` is deleted, `publishConfig` is set, and an
unrelated field survives unchanged. -/
theorem updatePackageJson_frame_witness :
    jsonGet ((updatePackageJson (some [("private", JVal.bool true), ("a", JVal.num 1)])
        "u").getD []) "publishConfig" = some (JVal.obj [("registry", JVal.str "u")]) ∧
    jsonGet ((updatePackageJson (some [("private", JVal.bool true), ("a", JVal.num 1)])
        "u").getD []) "private" = none ∧
    jsonGet ((updatePackageJson (some [("private", JVal.bool true), ("a", JVal.num 1)])
        "u").getD []) "a" = some (JVal.num 1) := by
  obtain ⟨-, out, hout, hpc, hdel, -, hframe⟩ :=
    updatePackageJson_frame [("private", JVal.bool true), ("a", JVal.num 1)] "u"
  rw [hout]
  simp only [Option.getD_some]
  exact ⟨hpc, hdel rfl, hframe "a" (by decide) (by decide)⟩

end CodeArtifact
